import Mathlib

/-!
Verification of the Meshcat scene-synchronization server (drake/geometry).

The repository ships the unit tests (`geometry/test/meshcat_test.cc`) for the
Meshcat facade; the facade implementation itself (path normalization,
scene tree, command codec, port binder) is not part of the source tree, so the
definitions below are modelled from the written specification, and the unit
tests are treated as authoritative wherever they pin down behavior.

Conventions of the embedding:
* packed command bytes are `List Nat`;
* IEEE-754 doubles are carried as their raw bit patterns (`Nat`), which is
  exactly the "bit-for-bit" transport the codec promises;
* a pose is carried as its 16-entry homogeneous matrix of such bit patterns
  (`Fin 16 → Nat`), matching `RigidTransform::GetAsMatrix4` at the interface
  boundary (Eigen itself is out of scope);
* the scene tree is a canonical sorted association list from normalized
  segment sequences to node content, with all ancestor keys present—an
  arena-style flattening of the recursive map-of-maps suggested by the spec's
  design notes.
-/

namespace Meshcat

/-- Packed command bytes. -/
abbrev Bytes := List Nat

/-- A normalized path: a sequence of non-empty segments. -/
abbrev Key := List String

/-- Byte-wise (codepoint-wise) strict order on character lists, mirroring
`std::string::operator<`. -/
def charListLt : List Char → List Char → Bool
  | [], [] => false
  | [], _ :: _ => true
  | _ :: _, [] => false
  | a :: as, b :: bs =>
    if a.toNat < b.toNat then true
    else if b.toNat < a.toNat then false
    else charListLt as bs

/-- Strict order on path segments (strings), mirroring `std::string` order. -/
def segLt (a b : String) : Bool := charListLt a.data b.data

/-- Lexicographic strict order on normalized paths, with a proper ancestor
ordered before its descendants; this is the order of a pre-order walk of a
tree whose children maps are sorted (`std::map`). -/
def keyLt : Key → Key → Bool
  | _, [] => false
  | [], _ :: _ => true
  | a :: as, b :: bs =>
    if segLt a b then true
    else if segLt b a then false
    else keyLt as bs

/-- Non-strict ordering on paths used to state replay order. -/
def keyLe (a b : Key) : Prop := a = b ∨ keyLt a b = true

/-- `keyLeads a b` holds when `a` is an ancestor-or-self of `b`
(segment-sequence `a` is an initial run of `b`). -/
def keyLeads : Key → Key → Bool
  | [], _ => true
  | _ :: _, [] => false
  | a :: as, b :: bs => if a = b then keyLeads as bs else false

/-- All proper ancestors of a key, shortest first (including the tree root
`[]`). -/
def properAncestors : Key → List Key
  | [] => []
  | a :: as => [] :: (properAncestors as).map (a :: ·)

/-- The fixed default root segment prepended to relative paths. -/
def defaultRootSegs : Key := ["drake"]

/-- Splitter for path strings: walks the characters, cutting at `'/'` and
dropping empty segments. -/
def splitSegsAux : List Char → List Char → List String
  | [], acc => if acc = [] then [] else [String.mk acc.reverse]
  | c :: cs, acc =>
    if c = '/' then
      if acc = [] then splitSegsAux cs []
      else String.mk acc.reverse :: splitSegsAux cs []
    else splitSegsAux cs (c :: acc)

/-- The non-empty segments of a path string. -/
def splitSegs (s : String) : List String := splitSegsAux s.data []

/-- Whether a path string is absolute (starts with `'/'`). -/
def startsSlash (s : String) : Bool :=
  match s.data with
  | [] => false
  | c :: _ => c = '/'

/-- Modelled from the spec: the missing `PathKey` component.
`Normalize(path)` splits on `/`, drops empty segments, and prepends the fixed
default root to any path that does not start with `/`; the empty string
normalizes to the default root itself.  Any string is accepted. -/
def normalizePath (p : String) : Key :=
  if startsSlash p then splitSegs p else defaultRootSegs ++ splitSegs p

/-- Modelled from the spec: the normalized absolute path string placed in
every outgoing message (a relative `"frame"` becomes `"/drake/frame"`). -/
def fullPath (p : String) : String :=
  match normalizePath p with
  | [] => "/"
  | segs => segs.foldl (fun acc s => acc ++ "/" ++ s) ""

/-- Digit emitter for `encNat`, structurally recursive on a fuel bound so
that it evaluates inside the kernel; `fuel > n` always suffices. -/
def encNatAux : Nat → Nat → List Nat
  | 0, _ => []
  | fuel + 1, n => if n = 0 then [255] else (n % 255) :: encNatAux fuel (n / 255)

/-- Modelled from the spec: the missing `CommandCodec`, natural-number atom.
A number is serialized as its little-endian base-255 digits (each `< 255`)
closed by the terminator byte `255`; this makes every value self-delimiting
regardless of magnitude, so 64-bit patterns travel bit-for-bit. -/
def encNat (n : Nat) : List Nat := encNatAux (n + 1) n

/-- Decoder for `encNat`: reads digits until the terminator. -/
def decNat : List Nat → Option (Nat × List Nat)
  | [] => none
  | b :: rest =>
    if b = 255 then some (0, rest)
    else
      match decNat rest with
      | some (n, r) => some (b + 255 * n, r)
      | none => none

/-- Modelled from the spec: codec string atom—length, then one atom per
character codepoint. -/
def encString (s : String) : List Nat :=
  encNat s.length ++ (s.data.map (fun c => encNat c.toNat)).flatten

/-- Reads `k` character atoms. -/
def decChars : Nat → List Nat → Option (List Char × List Nat)
  | 0, r => some ([], r)
  | k + 1, r =>
    match decNat r with
    | none => none
    | some (c, r1) =>
      match decChars k r1 with
      | none => none
      | some (cs, r2) => some (Char.ofNat c :: cs, r2)

/-- Decoder for `encString`. -/
def decString (bs : List Nat) : Option (String × List Nat) :=
  match decNat bs with
  | none => none
  | some (len, r) =>
    match decChars len r with
    | none => none
    | some (cs, r2) => some (String.mk cs, r2)

/-- Reads `k` number atoms. -/
def decNats : Nat → List Nat → Option (List Nat × List Nat)
  | 0, r => some ([], r)
  | k + 1, r =>
    match decNat r with
    | none => none
    | some (n, r1) =>
      match decNats k r1 with
      | none => none
      | some (ns, r2) => some (n :: ns, r2)

/-- The decoded form of a `set_transform` record, mirroring the test's
`internal::SetTransformData {type, path, matrix}`. -/
structure SetTransformData where
  type : String
  path : String
  matrix : List Nat
deriving DecidableEq, Repr

/-- Modelled from the spec: envelope of the `set_transform{path, 4x4 matrix}`
command—the discriminator string, the canonical path, then the sixteen
matrix entries (double bit patterns), in the one fixed entry order shared
with the client. -/
def encodeSetTransform (path : String) (m : Fin 16 → Nat) : Bytes :=
  encString "set_transform" ++ encString path ++ ((List.ofFn m).map encNat).flatten

/-- Modelled from the spec: decoding is the exact inverse of encoding; a
malformed envelope yields `none` (the `DecodeError` signal) without crashing
the caller. -/
def decodeSetTransform (bs : Bytes) : Option SetTransformData :=
  (decString bs).bind fun tyr =>
    if tyr.1 = "set_transform" then
      (decString tyr.2).bind fun pr =>
        (decNats 16 pr.2).bind fun mr =>
          if mr.2 = [] then some ⟨tyr.1, pr.1, mr.1⟩ else none
    else none

/-- The polymorphic value of a `set_property` command: a tagged variant over
the fixed value kinds. -/
inductive PropValue where
  | bool (b : Bool)
  | num (bits : Nat)
  | str (s : String)
  | payload (bs : Bytes)
deriving DecidableEq, Repr

/-- Modelled from the spec: envelope of `set_property{path, name, value}`. -/
def encodeSetProperty (path name : String) (v : PropValue) : Bytes :=
  encString "set_property" ++ encString path ++ encString name ++
    (match v with
     | .bool b => 0 :: [if b then 1 else 0]
     | .num bits => 1 :: encNat bits
     | .str s => 2 :: encString s
     | .payload bs => 3 :: encNat bs.length ++ bs)

/-- Modelled from the spec: envelope of `set_object{path, payload}`; the
payload is opaque, pre-serialized geometry + material bytes transported
byte-for-byte. -/
def encodeSetObject (path : String) (payload : Bytes) : Bytes :=
  encString "set_object" ++ encString path ++ encNat payload.length ++ payload

/-- Modelled from the spec: one `SceneNode`'s stored content—the latest
packed `object` command, latest packed `transform` command, and the
per-name map of the latest packed `property` commands (sorted by name, as
`std::map` keeps it). -/
structure NodeContent where
  object : Option Bytes
  transform : Option Bytes
  properties : List (String × Bytes)
deriving DecidableEq, Repr

/-- A node with no content, as created implicitly for ancestors. -/
def NodeContent.empty : NodeContent := ⟨none, none, []⟩

/-- Modelled from the spec: the missing `SceneTree`, flattened to a canonical
association list from normalized segment sequences to node content, kept
sorted by `keyLt` (so a left-to-right read of the list is exactly the
deterministic pre-order walk with children in ascending segment order);
every stored key's ancestors are also stored.  The empty list is the empty
tree. -/
abbrev SceneTree := List (Key × NodeContent)

/-- Exact-match association lookup (the `Find` traversal: absent unless every
segment matches). -/
def lookAssoc {α β : Type} [DecidableEq α] (k : α) : List (α × β) → Option β
  | [] => none
  | (k2, c) :: rest => if k = k2 then some c else lookAssoc k rest

/-- Order-preserving create-or-update of a sorted association list: inserts
`(k, f d)` at its sorted position when `k` is absent, replaces the stored
value `c` by `f c` when present. -/
def updAssoc {α β : Type} [DecidableEq α] (ltb : α → α → Bool) (k : α) (d : β)
    (f : β → β) : List (α × β) → List (α × β)
  | [] => [(k, f d)]
  | (k2, c) :: rest =>
    if ltb k k2 then (k, f d) :: (k2, c) :: rest
    else if k = k2 then (k, f c) :: rest
    else (k2, c) :: updAssoc ltb k d f rest

/-- Creates every key of `ks` (shortest ancestors first) with empty content
when absent. -/
def ensureKeys (ks : List Key) (t : SceneTree) : SceneTree :=
  match ks with
  | [] => t
  | k :: rest => ensureKeys rest (updAssoc keyLt k NodeContent.empty id t)

/-- Modelled from the spec: create-or-replace at a normalized key, creating
missing ancestor nodes implicitly. -/
def writeAt (k : Key) (f : NodeContent → NodeContent) (t : SceneTree) :
    SceneTree :=
  updAssoc keyLt k NodeContent.empty f (ensureKeys (properAncestors k) t)

/-- Modelled from the spec: `SetObject(path, commandBytes)`—create-or-replace
the node's `object` slot with the packed command (canonical absolute path
inside). -/
def setObjectOp (p : String) (payload : Bytes) (t : SceneTree) : SceneTree :=
  writeAt (normalizePath p)
    (fun c => { c with object := some (encodeSetObject (fullPath p) payload) }) t

/-- Modelled from the spec: `SetTransform(path, pose)`—create-or-replace the
`transform` slot with the packed command. -/
def setTransformOp (p : String) (m : Fin 16 → Nat) (t : SceneTree) : SceneTree :=
  writeAt (normalizePath p)
    (fun c => { c with transform := some (encodeSetTransform (fullPath p) m) }) t

/-- Modelled from the spec: `SetProperty(path, name, value)`—create-or-replace
one entry of the node's property map. -/
def setPropertyOp (p : String) (name : String) (v : PropValue) (t : SceneTree) :
    SceneTree :=
  writeAt (normalizePath p)
    (fun c =>
      { c with
        properties :=
          updAssoc segLt name []
            (fun _ => encodeSetProperty (fullPath p) name v) c.properties }) t

/-- Modelled from the spec: `Delete(path)` (default argument `""`): remove the
node at the normalized path and its entire subtree; when the path normalizes
to the root or to the default root (the empty string does, and "deleting the
empty string clears everything, matching the root-delete case"), the whole
tree is cleared, not merely the default root's children.  Emptied ancestors
are not pruned: the repository's test expects `HasPath("/drake")` to stay
true after all of its children are deleted. -/
def deleteOp (p : String) (t : SceneTree) : SceneTree :=
  if normalizePath p = [] ∨ normalizePath p = defaultRootSegs then []
  else t.filter (fun e => !keyLeads (normalizePath p) e.1)

/-- Modelled from the spec: `HasPath(path)`—true iff the exact-match
traversal succeeds. -/
def hasPath (t : SceneTree) (p : String) : Bool :=
  (lookAssoc (normalizePath p) t).isSome

/-- Modelled from the spec: `GetPackedObject(path)`—the cached bytes for an
existing slot, or empty bytes if the node or slot is absent; absence is a
normal, silent case, never an error. -/
def getPackedObject (t : SceneTree) (p : String) : Bytes :=
  match lookAssoc (normalizePath p) t with
  | none => []
  | some c =>
    match c.object with
    | none => []
    | some bs => bs

/-- Modelled from the spec: `GetPackedTransform(path)`. -/
def getPackedTransform (t : SceneTree) (p : String) : Bytes :=
  match lookAssoc (normalizePath p) t with
  | none => []
  | some c =>
    match c.transform with
    | none => []
    | some bs => bs

/-- Modelled from the spec: `GetPackedProperty(path, name)`. -/
def getPackedProperty (t : SceneTree) (p name : String) : Bytes :=
  match lookAssoc (normalizePath p) t with
  | none => []
  | some c =>
    match lookAssoc name c.properties with
    | none => []
    | some bs => bs

/-- The shape descriptors accepted by the facade's `SetObject`. -/
inductive Shape where
  | sphere (radius : Nat)
  | cylinder (radius length : Nat)
  | box (width depth height : Nat)
  | ellipsoid (a b c : Nat)
  | halfSpace
  | capsule (radius length : Nat)
  | mesh (filename : String) (scale : Nat)
  | convex (filename : String) (scale : Nat)

/-- Whether a mesh filename carries a recognizable extension. -/
def meshExtOk (fn : String) : Bool :=
  let ends := fun (suf : String) =>
    List.isPrefixOf suf.data.reverse fn.data.reverse
  ends ".obj" || ends ".dae" || ends ".stl"

/-- Modelled from the spec: lowering a shape descriptor to the opaque object
payload.  Unrecognized kinds (`HalfSpace`, `Capsule`) and invalid asset
references (mesh file missing from the ambient file system `fs`, or no
recognizable extension) produce `none`: only a warning is logged and nothing
else happens.  `fs` abstracts the external file system at the interface
boundary. -/
def lowerShape (fs : String → Bool) : Shape → Option Bytes
  | .sphere r => some (encString "SphereGeometry" ++ encNat r)
  | .cylinder r l => some (encString "CylinderGeometry" ++ encNat r ++ encNat l)
  | .box w d h => some (encString "BoxGeometry" ++ encNat w ++ encNat d ++ encNat h)
  | .ellipsoid a b c =>
    some (encString "ScaledSphereGeometry" ++ encNat a ++ encNat b ++ encNat c)
  | .halfSpace => none
  | .capsule _ _ => none
  | .mesh fn sc =>
    if meshExtOk fn && fs fn then
      some (encString "MeshGeometry" ++ encString fn ++ encNat sc)
    else none
  | .convex fn sc =>
    if meshExtOk fn && fs fn then
      some (encString "MeshGeometry" ++ encString fn ++ encNat sc)
    else none

/-- Modelled from the spec: the facade's `SetObject(path, shape, ...)`—on an
unsupported shape or invalid asset reference it performs no tree mutation at
all and raises nothing (the model is a total function). -/
def setObjectShape (fs : String → Bool) (p : String) (s : Shape)
    (t : SceneTree) : SceneTree :=
  match lowerShape fs s with
  | none => t
  | some payload => setObjectOp p payload t

/-- One facade mutation, for quantifying over every reachable tree state. -/
inductive Op where
  | setObject (p : String) (payload : Bytes)
  | setObjectShape (fs : String → Bool) (p : String) (s : Shape)
  | setTransform (p : String) (m : Fin 16 → Nat)
  | setProperty (p : String) (name : String) (v : PropValue)
  | delete (p : String)

/-- Applies one facade mutation. -/
def applyOp (t : SceneTree) (op : Op) : SceneTree :=
  match op with
  | .setObject p payload => setObjectOp p payload t
  | .setObjectShape fs p s => setObjectShape fs p s t
  | .setTransform p m => setTransformOp p m t
  | .setProperty p name v => setPropertyOp p name v t
  | .delete p => deleteOp p t

/-- Applies a chronological sequence of facade mutations. -/
def applyOps (ops : List Op) (t : SceneTree) : SceneTree := ops.foldl applyOp t

/-- The commands a node contributes to a replay: its `object` command (if
present), its `transform` command (if present), then each property command
in ascending property-name order (the map is kept sorted). -/
def nodeMsgs (c : NodeContent) : List Bytes :=
  c.object.toList ++ c.transform.toList ++ c.properties.map Prod.snd

/-- Modelled from the spec: the Broadcaster's replay to a newly joined
connection—a deterministic pre-order walk of the scene tree (a left-to-right
read of the canonical sorted list) enqueueing every cached command. -/
def replay (t : SceneTree) : List Bytes :=
  match t with
  | [] => []
  | e :: rest => nodeMsgs e.2 ++ replay rest

/-- The path each replayed command is addressed to, in emission order. -/
def replayPaths (t : SceneTree) : List Key :=
  match t with
  | [] => []
  | e :: rest => List.replicate (nodeMsgs e.2).length e.1 ++ replayPaths rest

/-- A node's property map is sorted by property name. -/
def propsSorted (c : NodeContent) : Prop :=
  List.Pairwise (fun x y => segLt x.1 y.1 = true) c.properties

/-- The trees produced by facade mutations: sorted keys and sorted property
maps. -/
def treeSorted (t : SceneTree) : Prop :=
  List.Pairwise (fun e1 e2 => keyLt e1.1 e2.1 = true) t ∧
    ∀ e ∈ t, propsSorted e.2

/-- Every stored key's ancestors are stored. -/
def treeClosed (t : SceneTree) : Prop :=
  ∀ a ∈ t.map Prod.fst, ∀ k, keyLeads k a = true → k ∈ t.map Prod.fst

/-- The fixed error message of the port binder (as pinned by the repository's
test `MeshcatTest.Ports`). -/
def meshcatPortError : String := "Meshcat failed to open a websocket port."

/-- Modelled from the spec: the missing `PortBinder`.  `avail` abstracts the
operating system's willingness to bind a port.  With an explicit request the
bind is attempted exactly once, with no fallback; without one, ports
7000–7099 are tried in ascending order.  The result pairs the outcome with
the list of ports attempted, in order. -/
def bindPort (req : Option Nat) (avail : Nat → Bool) :
    Except String Nat × List Nat :=
  match req with
  | some p => (if avail p then .ok p else .error meshcatPortError, [p])
  | none =>
    match (List.range' 7000 100).find? avail with
    | some p =>
      (.ok p, (List.range' 7000 100).takeWhile (fun q => !avail q) ++ [p])
    | none => (.error meshcatPortError, List.range' 7000 100)

/-- A concrete all-zero pose matrix used in concrete instances. -/
def zeroMatrix : Fin 16 → Nat := fun _ => 0

/-- The invariant every reachable tree state satisfies. -/
def reachInv (t : SceneTree) : Prop := treeSorted t ∧ treeClosed t

/-- The tree of the C3 example: `SetTransform` on `"test/a"`, `"test/b"`,
`"test/c/d"`. -/
def c3tree : SceneTree :=
  applyOps [Op.setTransform "test/a" zeroMatrix,
    Op.setTransform "test/b" zeroMatrix,
    Op.setTransform "test/c/d" zeroMatrix] []

/-- The operation sequence of the repository test `MeshcatTest.Delete`
(lines 146-157): three transforms under `"test"`, then `Delete("test")`. -/
def c4ops : List Op :=
  [Op.setTransform "test/frame" zeroMatrix,
   Op.setTransform "test/frame2" zeroMatrix,
   Op.setTransform "test/another/frame" zeroMatrix,
   Op.delete "test"]

/-- The tree of the C10 counterexample: one property at `"/Grid"` and
nothing under the default root. -/
def c10tree : SceneTree :=
  applyOps [Op.setProperty "/Grid" "visible" (PropValue.bool false)] []

theorem charListLt_irrefl : ∀ a, charListLt a a = false := by
  intro a
  induction a with
  | nil => rfl
  | cons x xs ih => simp [charListLt, ih]

theorem charListLt_trans :
    ∀ a b c, charListLt a b = true → charListLt b c = true →
      charListLt a c = true := by
  intro a
  induction a with
  | nil =>
    intro b c h1 h2
    cases b with
    | nil => simp [charListLt] at h1
    | cons y ys =>
      cases c with
      | nil => simp [charListLt] at h2
      | cons z zs => simp [charListLt]
  | cons x xs ih =>
    intro b c h1 h2
    cases b with
    | nil => simp [charListLt] at h1
    | cons y ys =>
      cases c with
      | nil => simp [charListLt] at h2
      | cons z zs =>
        simp only [charListLt] at h1 h2 ⊢
        by_cases hxy : x.toNat < y.toNat
        · by_cases hyz : y.toNat < z.toNat
          · have hxz : x.toNat < z.toNat := by omega
            simp [hxz]
          · by_cases hzy : z.toNat < y.toNat
            · rw [if_neg hyz, if_pos hzy] at h2
              exact absurd h2 (by simp)
            · have hxz : x.toNat < z.toNat := by omega
              simp [hxz]
        · by_cases hyx : y.toNat < x.toNat
          · rw [if_neg hxy, if_pos hyx] at h1
            exact absurd h1 (by simp)
          · rw [if_neg hxy, if_neg hyx] at h1
            by_cases hyz : y.toNat < z.toNat
            · have hxz : x.toNat < z.toNat := by omega
              simp [hxz]
            · by_cases hzy : z.toNat < y.toNat
              · rw [if_neg hyz, if_pos hzy] at h2
                exact absurd h2 (by simp)
              · rw [if_neg hyz, if_neg hzy] at h2
                have hxz : ¬ x.toNat < z.toNat := by omega
                have hzx : ¬ z.toNat < x.toNat := by omega
                rw [if_neg hxz, if_neg hzx]
                exact ih ys zs h1 h2

theorem charListLt_conn :
    ∀ a b, charListLt a b = false → a ≠ b → charListLt b a = true := by
  intro a
  induction a with
  | nil =>
    intro b h1 h2
    cases b with
    | nil => exact absurd rfl h2
    | cons y ys => simp [charListLt] at h1
  | cons x xs ih =>
    intro b h1 h2
    cases b with
    | nil => simp [charListLt]
    | cons y ys =>
      simp only [charListLt] at h1 ⊢
      by_cases hxy : x.toNat < y.toNat
      · simp [hxy] at h1
      · by_cases hyx : y.toNat < x.toNat
        · simp [hyx]
        · have hn : x.toNat = y.toNat := by omega
          have hq : x = y := by
            rw [← Char.ofNat_toNat x, ← Char.ofNat_toNat y, hn]
          subst hq
          rw [if_neg (Nat.lt_irrefl _), if_neg (Nat.lt_irrefl _)] at h1
          rw [if_neg (Nat.lt_irrefl _), if_neg (Nat.lt_irrefl _)]
          exact ih ys h1 (fun hc => h2 (by rw [hc]))

theorem segLt_irrefl (a : String) : segLt a a = false :=
  charListLt_irrefl a.data

theorem segLt_trans {a b c : String} (h1 : segLt a b = true)
    (h2 : segLt b c = true) : segLt a c = true :=
  charListLt_trans a.data b.data c.data h1 h2

theorem segLt_conn {a b : String} (h1 : segLt a b = false) (h2 : a ≠ b) :
    segLt b a = true :=
  charListLt_conn a.data b.data h1 (fun hd => h2 (String.ext hd))

theorem segLt_eq_of_not {a b : String} (h1 : segLt a b = false)
    (h2 : segLt b a = false) : a = b := by
  by_contra hne
  rw [segLt_conn h1 hne] at h2
  simp at h2

theorem keyLt_trans :
    ∀ a b c : Key, keyLt a b = true → keyLt b c = true → keyLt a c = true := by
  intro a
  induction a with
  | nil =>
    intro b c h1 h2
    cases b with
    | nil => simp [keyLt] at h1
    | cons y ys =>
      cases c with
      | nil => simp [keyLt] at h2
      | cons z zs => simp [keyLt]
  | cons x xs ih =>
    intro b c h1 h2
    cases b with
    | nil => simp [keyLt] at h1
    | cons y ys =>
      cases c with
      | nil => simp [keyLt] at h2
      | cons z zs =>
        simp only [keyLt] at h1 h2 ⊢
        by_cases hxy : segLt x y = true
        · by_cases hyz : segLt y z = true
          · simp [segLt_trans hxy hyz]
          · by_cases hzy : segLt z y = true
            · simp [Bool.of_not_eq_true hyz, hzy] at h2
            · have : y = z :=
                segLt_eq_of_not (Bool.of_not_eq_true hyz) (Bool.of_not_eq_true hzy)
              subst this
              simp [hxy]
        · by_cases hyx : segLt y x = true
          · simp [Bool.of_not_eq_true hxy, hyx] at h1
          · have : x = y :=
              segLt_eq_of_not (Bool.of_not_eq_true hxy) (Bool.of_not_eq_true hyx)
            subst this
            simp only [segLt_irrefl, if_neg, Bool.false_eq_true, reduceIte] at h1
            by_cases hyz : segLt x z = true
            · simp [hyz]
            · by_cases hzy : segLt z x = true
              · simp [Bool.of_not_eq_true hyz, hzy] at h2
              · have : x = z :=
                  segLt_eq_of_not (Bool.of_not_eq_true hyz) (Bool.of_not_eq_true hzy)
                subst this
                simp only [segLt_irrefl, Bool.false_eq_true, reduceIte] at h2 ⊢
                exact ih ys zs h1 h2

theorem keyLt_conn :
    ∀ a b : Key, keyLt a b = false → a ≠ b → keyLt b a = true := by
  intro a
  induction a with
  | nil =>
    intro b h1 h2
    cases b with
    | nil => exact absurd rfl h2
    | cons y ys => simp [keyLt] at h1
  | cons x xs ih =>
    intro b h1 h2
    cases b with
    | nil => simp [keyLt]
    | cons y ys =>
      simp only [keyLt] at h1 ⊢
      by_cases hxy : segLt x y = true
      · simp [hxy] at h1
      · by_cases hyx : segLt y x = true
        · simp [hyx]
        · have : x = y :=
            segLt_eq_of_not (Bool.of_not_eq_true hxy) (Bool.of_not_eq_true hyx)
          subst this
          simp only [segLt_irrefl, Bool.false_eq_true, reduceIte] at h1 ⊢
          exact ih ys h1 (fun hc => h2 (by rw [hc]))

theorem keyLeads_refl : ∀ a : Key, keyLeads a a = true := by
  intro a
  induction a with
  | nil => rfl
  | cons x xs ih => simp [keyLeads, ih]

theorem keyLeads_trans :
    ∀ a b c : Key, keyLeads a b = true → keyLeads b c = true →
      keyLeads a c = true := by
  intro a
  induction a with
  | nil => intro b c h1 h2; rfl
  | cons x xs ih =>
    intro b c h1 h2
    cases b with
    | nil => simp [keyLeads] at h1
    | cons y ys =>
      simp only [keyLeads] at h1
      by_cases hxy : x = y
      · subst hxy
        simp only [if_pos rfl] at h1
        cases c with
        | nil => simp [keyLeads] at h2
        | cons z zs =>
          simp only [keyLeads] at h2 ⊢
          by_cases hyz : x = z
          · subst hyz
            simp only [if_pos rfl] at h2 ⊢
            exact ih ys zs h1 h2
          · simp [hyz] at h2
      · simp [hxy] at h1

theorem keyLeads_antisymm :
    ∀ a b : Key, keyLeads a b = true → keyLeads b a = true → a = b := by
  intro a
  induction a with
  | nil =>
    intro b h1 h2
    cases b with
    | nil => rfl
    | cons y ys => simp [keyLeads] at h2
  | cons x xs ih =>
    intro b h1 h2
    cases b with
    | nil => simp [keyLeads] at h1
    | cons y ys =>
      simp only [keyLeads] at h1 h2
      by_cases hxy : x = y
      · subst hxy
        simp only [if_pos rfl] at h1 h2
        rw [ih ys h1 h2]
      · simp [hxy] at h1

theorem mem_properAncestors :
    ∀ b a : Key, a ∈ properAncestors b ↔ (keyLeads a b = true ∧ a ≠ b) := by
  intro b
  induction b with
  | nil =>
    intro a
    cases a with
    | nil => simp [properAncestors]
    | cons y ys => simp [properAncestors, keyLeads]
  | cons x xs ih =>
    intro a
    cases a with
    | nil => simp [properAncestors, keyLeads]
    | cons y ys =>
      simp only [properAncestors, List.mem_cons, List.mem_map]
      constructor
      · rintro (h | ⟨a2, ha2, heq⟩)
        · exact absurd h (by simp)
        · injection heq with he1 he2
          subst he1
          subst he2
          rw [ih] at ha2
          refine ⟨by simp [keyLeads, ha2.1], ?_⟩
          intro hc
          injection hc with h1 h2
          exact ha2.2 h2
      · rintro ⟨h1, h2⟩
        simp only [keyLeads] at h1
        by_cases hxy : y = x
        · subst hxy
          simp only [if_pos rfl] at h1
          right
          exact ⟨ys, (ih ys).mpr ⟨h1, fun hc => h2 (by rw [hc])⟩, rfl⟩
        · simp [hxy] at h1

theorem decNat_encNatAux :
    ∀ (fuel n : Nat), n < fuel → ∀ r : List Nat,
      decNat (encNatAux fuel n ++ r) = some (n, r) := by
  intro fuel
  induction fuel with
  | zero =>
    intro n h
    omega
  | succ fuel ih =>
    intro n h r
    simp only [encNatAux]
    by_cases h0 : n = 0
    · subst h0
      simp [decNat]
    · rw [if_neg h0]
      have hm : ¬ (n % 255 = 255) := by
        have := Nat.mod_lt n (show 0 < 255 by norm_num)
        omega
      simp only [List.cons_append, decNat, if_neg hm]
      have hlt : n / 255 < fuel := by
        have h1 : n / 255 < n :=
          Nat.div_lt_self (Nat.pos_of_ne_zero h0) (by norm_num)
        omega
      have hsw : (encNatAux fuel (n / 255)).append r =
          encNatAux fuel (n / 255) ++ r := rfl
      rw [hsw, ih (n / 255) hlt r]
      have he : n % 255 + 255 * (n / 255) = n := by
        have := Nat.mod_add_div n 255
        omega
      simp [he]

theorem decNat_encNat (n : Nat) (r : List Nat) :
    decNat (encNat n ++ r) = some (n, r) :=
  decNat_encNatAux (n + 1) n (Nat.lt_succ_self n) r

theorem decChars_enc (cs : List Char) (r : List Nat) :
    decChars cs.length ((cs.map (fun c => encNat c.toNat)).flatten ++ r) =
      some (cs, r) := by
  induction cs generalizing r with
  | nil => simp [decChars]
  | cons c cs ih =>
    simp only [List.length_cons, List.map_cons, List.flatten_cons,
      List.append_assoc, decChars]
    rw [decNat_encNat]
    simp [ih]

theorem decNats_enc (ns : List Nat) (r : List Nat) :
    decNats ns.length ((ns.map encNat).flatten ++ r) = some (ns, r) := by
  induction ns generalizing r with
  | nil => simp [decNats]
  | cons n ns ih =>
    simp only [List.length_cons, List.map_cons, List.flatten_cons,
      List.append_assoc, decNats]
    rw [decNat_encNat]
    simp [ih]

theorem decString_enc (s : String) (r : List Nat) :
    decString (encString s ++ r) = some (s, r) := by
  obtain ⟨data⟩ := s
  have hl : String.length ⟨data⟩ = data.length := rfl
  simp only [encString, decString, List.append_assoc, hl]
  rw [decNat_encNat]
  simp [decChars_enc]

theorem decNats16_enc (m : Fin 16 → Nat) (r : List Nat) :
    decNats 16 (((List.ofFn m).map encNat).flatten ++ r) =
      some (List.ofFn m, r) := by
  have h := decNats_enc (List.ofFn m) r
  simpa using h

theorem decodeSetTransform_enc (path : String) (m : Fin 16 → Nat) :
    decodeSetTransform (encodeSetTransform path m) =
      some ⟨"set_transform", path, List.ofFn m⟩ := by
  have h : encodeSetTransform path m =
      encString "set_transform" ++
        (encString path ++ (((List.ofFn m).map encNat).flatten ++ [])) := by
    simp [encodeSetTransform]
  rw [h]
  simp only [decodeSetTransform, decString_enc, Option.some_bind,
    decNats16_enc, reduceIte]

theorem lookAssoc_updAssoc_self {α β : Type} [DecidableEq α]
    (ltb : α → α → Bool) (k : α) (d : β) (f : β → β) (t : List (α × β)) :
    ∃ c, lookAssoc k (updAssoc ltb k d f t) = some (f c) := by
  induction t with
  | nil => exact ⟨d, by simp [updAssoc, lookAssoc]⟩
  | cons e rest ih =>
    obtain ⟨k2, c⟩ := e
    simp only [updAssoc]
    by_cases h1 : ltb k k2 = true
    · exact ⟨d, by simp [h1, lookAssoc]⟩
    · by_cases h2 : k = k2
      · subst h2
        exact ⟨c, by simp [h1, lookAssoc]⟩
      · obtain ⟨c2, hc2⟩ := ih
        exact ⟨c2, by simp [h1, h2, lookAssoc, hc2]⟩

theorem mem_updAssoc {α β : Type} [DecidableEq α] {ltb : α → α → Bool}
    {k : α} {d : β} {f : β → β} :
    ∀ {t : List (α × β)} {e}, e ∈ updAssoc ltb k d f t →
      e ∈ t ∨ e = (k, f d) ∨ ∃ c, (k, c) ∈ t ∧ e = (k, f c) := by
  intro t
  induction t with
  | nil =>
    intro e he
    simp [updAssoc] at he
    exact Or.inr (Or.inl he)
  | cons e2 rest ih =>
    intro e he
    obtain ⟨k2, c⟩ := e2
    simp only [updAssoc] at he
    by_cases h1 : ltb k k2 = true
    · simp only [if_pos h1, List.mem_cons] at he
      rcases he with h | h | h
      · exact Or.inr (Or.inl h)
      · subst h; exact Or.inl (List.mem_cons_self _ _)
      · exact Or.inl (List.mem_cons_of_mem _ h)
    · by_cases h2 : k = k2
      · subst h2
        rw [if_neg h1, if_pos rfl] at he
        simp only [List.mem_cons] at he
        rcases he with h | h
        · exact Or.inr (Or.inr ⟨c, List.mem_cons_self _ _, h⟩)
        · exact Or.inl (List.mem_cons_of_mem _ h)
      · simp only [if_neg h1, if_neg h2, List.mem_cons] at he
        rcases he with h | h
        · subst h; exact Or.inl (List.mem_cons_self _ _)
        · rcases ih h with h3 | h3 | ⟨c2, hc2, h4⟩
          · exact Or.inl (List.mem_cons_of_mem _ h3)
          · exact Or.inr (Or.inl h3)
          · exact Or.inr (Or.inr ⟨c2, List.mem_cons_of_mem _ hc2, h4⟩)

theorem keys_updAssoc {α β : Type} [DecidableEq α] (ltb : α → α → Bool)
    (k : α) (d : β) (f : β → β) (t : List (α × β)) (a : α) :
    a ∈ (updAssoc ltb k d f t).map Prod.fst ↔ a = k ∨ a ∈ t.map Prod.fst := by
  induction t with
  | nil => simp [updAssoc]
  | cons e rest ih =>
    obtain ⟨k2, c⟩ := e
    simp only [updAssoc]
    by_cases h1 : ltb k k2 = true
    · rw [if_pos h1]
      simp only [List.map_cons, List.mem_cons]
      try tauto
    · by_cases h2 : k = k2
      · subst h2
        rw [if_neg h1, if_pos rfl]
        simp only [List.map_cons, List.mem_cons]
        try tauto
      · rw [if_neg h1, if_neg h2]
        simp only [List.map_cons, List.mem_cons]
        rw [ih]
        try tauto

theorem lookAssoc_eq_none {α β : Type} [DecidableEq α] (k : α)
    (t : List (α × β)) : lookAssoc k t = none ↔ k ∉ t.map Prod.fst := by
  induction t with
  | nil => simp [lookAssoc]
  | cons e rest ih =>
    obtain ⟨k2, c⟩ := e
    simp only [lookAssoc, List.map_cons, List.mem_cons]
    by_cases h : k = k2
    · simp [h]
    · simp [h, ih]

theorem pairwise_updAssoc {α β : Type} [DecidableEq α] {ltb : α → α → Bool}
    (hTrans : ∀ a b c, ltb a b = true → ltb b c = true → ltb a c = true)
    (hConn : ∀ a b, ltb a b = false → a ≠ b → ltb b a = true)
    (k : α) (d : β) (f : β → β) :
    ∀ {t : List (α × β)},
      List.Pairwise (fun e1 e2 => ltb e1.1 e2.1 = true) t →
      List.Pairwise (fun e1 e2 => ltb e1.1 e2.1 = true)
        (updAssoc ltb k d f t) := by
  intro t
  induction t with
  | nil =>
    intro _
    simp [updAssoc]
  | cons e rest ih =>
    intro h
    obtain ⟨k2, c⟩ := e
    rcases List.pairwise_cons.mp h with ⟨hhead, hrest⟩
    simp only [updAssoc]
    by_cases h1 : ltb k k2 = true
    · rw [if_pos h1]
      refine List.pairwise_cons.mpr ⟨?_, h⟩
      intro e2 he2
      rcases List.mem_cons.mp he2 with h3 | h3
      · rw [h3]; exact h1
      · exact hTrans _ _ _ h1 (hhead e2 h3)
    · by_cases h2 : k = k2
      · subst h2
        rw [if_neg h1, if_pos rfl]
        exact List.pairwise_cons.mpr ⟨fun e2 he2 => hhead e2 he2, hrest⟩
      · rw [if_neg h1, if_neg h2]
        refine List.pairwise_cons.mpr ⟨?_, ih hrest⟩
        intro e2 he2
        rcases mem_updAssoc he2 with h3 | h3 | ⟨c2, hc2, h4⟩
        · exact hhead e2 h3
        · rw [h3]; exact hConn _ _ (Bool.of_not_eq_true h1) h2
        · rw [h4]; exact hConn _ _ (Bool.of_not_eq_true h1) h2

theorem keys_ensureKeys (ks : List Key) :
    ∀ (t : SceneTree) (a : Key),
      a ∈ (ensureKeys ks t).map Prod.fst ↔ a ∈ ks ∨ a ∈ t.map Prod.fst := by
  induction ks with
  | nil =>
    intro t a
    constructor
    · intro h
      exact Or.inr h
    · intro h
      rcases h with h | h
      · exact absurd h (List.not_mem_nil a)
      · exact h
  | cons k ks ih =>
    intro t a
    simp only [ensureKeys]
    rw [ih]
    rw [keys_updAssoc]
    simp only [List.mem_cons]
    tauto

theorem keys_writeAt (k : Key) (f : NodeContent → NodeContent) (t : SceneTree)
    (a : Key) :
    a ∈ (writeAt k f t).map Prod.fst ↔
      a = k ∨ a ∈ properAncestors k ∨ a ∈ t.map Prod.fst := by
  simp only [writeAt]
  rw [keys_updAssoc, keys_ensureKeys]

theorem lookAssoc_writeAt (k : Key) (f : NodeContent → NodeContent)
    (t : SceneTree) : ∃ c, lookAssoc k (writeAt k f t) = some (f c) :=
  lookAssoc_updAssoc_self _ _ _ _ _

theorem pairwise_ensureKeys (ks : List Key) :
    ∀ {t : SceneTree},
      List.Pairwise (fun e1 e2 => keyLt e1.1 e2.1 = true) t →
      List.Pairwise (fun e1 e2 => keyLt e1.1 e2.1 = true) (ensureKeys ks t) := by
  induction ks with
  | nil => intro t h; exact h
  | cons k ks ih =>
    intro t h
    exact ih (pairwise_updAssoc keyLt_trans keyLt_conn k NodeContent.empty id h)

theorem props_ensureKeys (ks : List Key) :
    ∀ {t : SceneTree}, (∀ e ∈ t, propsSorted e.2) →
      ∀ e ∈ ensureKeys ks t, propsSorted e.2 := by
  induction ks with
  | nil => intro t h; exact h
  | cons k ks ih =>
    intro t ht
    refine ih ?_
    intro e he
    rcases mem_updAssoc he with h | h | ⟨c, hc, hh⟩
    · exact ht e h
    · rw [h]
      exact List.Pairwise.nil
    · rw [hh]
      exact ht (k, c) hc

theorem treeSorted_writeAt (k : Key) (f : NodeContent → NodeContent)
    (hf : ∀ c, propsSorted c → propsSorted (f c)) {t : SceneTree}
    (h : treeSorted t) : treeSorted (writeAt k f t) := by
  obtain ⟨h1, h2⟩ := h
  constructor
  · exact pairwise_updAssoc keyLt_trans keyLt_conn k NodeContent.empty f
      (pairwise_ensureKeys _ h1)
  · intro e he
    rcases mem_updAssoc he with h3 | h3 | ⟨c, hc, hh⟩
    · exact props_ensureKeys _ h2 e h3
    · rw [h3]
      exact hf _ List.Pairwise.nil
    · rw [hh]
      exact hf _ (props_ensureKeys _ h2 (k, c) hc)

theorem treeClosed_writeAt (k : Key) (f : NodeContent → NodeContent)
    {t : SceneTree} (h : treeClosed t) : treeClosed (writeAt k f t) := by
  intro a ha k2 hlead
  rw [keys_writeAt] at ha ⊢
  rcases ha with rfl | ha | ha
  · by_cases hk : k2 = a
    · exact Or.inl hk
    · exact Or.inr (Or.inl ((mem_properAncestors a k2).mpr ⟨hlead, hk⟩))
  · have h2 := (mem_properAncestors k a).mp ha
    have h3 : keyLeads k2 k = true := keyLeads_trans _ _ _ hlead h2.1
    by_cases hk : k2 = k
    · exact Or.inl hk
    · exact Or.inr (Or.inl ((mem_properAncestors k k2).mpr ⟨h3, hk⟩))
  · exact Or.inr (Or.inr (h a ha k2 hlead))

theorem treeClosed_filter (np : Key) {t : SceneTree} (h : treeClosed t) :
    treeClosed (t.filter (fun e => !keyLeads np e.1)) := by
  intro a ha k2 hlead
  rcases List.mem_map.mp ha with ⟨e, he, rfl⟩
  have hef := List.mem_filter.mp he
  have hk2 : k2 ∈ t.map Prod.fst :=
    h e.1 (List.mem_map.mpr ⟨e, hef.1, rfl⟩) k2 hlead
  rcases List.mem_map.mp hk2 with ⟨e2, he2, rfl⟩
  refine List.mem_map.mpr ⟨e2, List.mem_filter.mpr ⟨he2, ?_⟩, rfl⟩
  cases hb : keyLeads np e2.1 with
  | false => simp [hb]
  | true =>
    have hcontra : keyLeads np e.1 = true := keyLeads_trans _ _ _ hb hlead
    have := hef.2
    simp [hcontra] at this

theorem reachInv_nil : reachInv [] := by
  refine ⟨⟨List.Pairwise.nil, ?_⟩, ?_⟩
  · intro e he
    simp at he
  · intro a ha
    simp at ha

theorem reachInv_writeAt (k : Key) (f : NodeContent → NodeContent)
    (hf : ∀ c, propsSorted c → propsSorted (f c)) {t : SceneTree}
    (h : reachInv t) : reachInv (writeAt k f t) :=
  ⟨treeSorted_writeAt k f hf h.1, treeClosed_writeAt k f h.2⟩

theorem reachInv_deleteOp (p : String) {t : SceneTree} (h : reachInv t) :
    reachInv (deleteOp p t) := by
  unfold deleteOp
  by_cases hr : normalizePath p = [] ∨ normalizePath p = defaultRootSegs
  · rw [if_pos hr]
    exact reachInv_nil
  · rw [if_neg hr]
    obtain ⟨⟨h1, h2⟩, h3⟩ := h
    refine ⟨⟨List.Pairwise.sublist (List.filter_sublist t) h1, ?_⟩,
      treeClosed_filter _ h3⟩
    intro e he
    exact h2 e (List.mem_filter.mp he).1

theorem reachInv_applyOp (op : Op) {t : SceneTree} (h : reachInv t) :
    reachInv (applyOp t op) := by
  cases op with
  | setObject p payload =>
    simp only [applyOp, setObjectOp]
    refine reachInv_writeAt _ _ ?_ h
    intro c hc
    exact hc
  | setObjectShape fs p s =>
    simp only [applyOp, setObjectShape]
    cases lowerShape fs s with
    | none => exact h
    | some payload =>
      simp only [setObjectOp]
      refine reachInv_writeAt _ _ ?_ h
      intro c hc
      exact hc
  | setTransform p m =>
    simp only [applyOp, setTransformOp]
    refine reachInv_writeAt _ _ ?_ h
    intro c hc
    exact hc
  | setProperty p name v =>
    simp only [applyOp, setPropertyOp]
    refine reachInv_writeAt _ _ ?_ h
    intro c hc
    unfold propsSorted at hc ⊢
    exact @pairwise_updAssoc String Bytes _ segLt
      (fun a b c2 hab hbc => segLt_trans hab hbc)
      (fun a b hab hne => segLt_conn hab hne)
      name [] (fun _ => encodeSetProperty (fullPath p) name v)
      c.properties hc
  | delete p =>
    exact reachInv_deleteOp p h

theorem reachInv_applyOps (ops : List Op) :
    ∀ t : SceneTree, reachInv t → reachInv (applyOps ops t) := by
  induction ops with
  | nil => intro t h; exact h
  | cons op ops ih =>
    intro t h
    exact ih (applyOp t op) (reachInv_applyOp op h)

theorem reachInv_state (ops : List Op) : reachInv (applyOps ops []) :=
  reachInv_applyOps ops [] reachInv_nil

theorem mem_replayPaths :
    ∀ {t : SceneTree} {a : Key}, a ∈ replayPaths t → a ∈ t.map Prod.fst := by
  intro t
  induction t with
  | nil => intro a ha; simp [replayPaths] at ha
  | cons e rest ih =>
    intro a ha
    simp only [replayPaths, List.mem_append] at ha
    rcases ha with h | h
    · rw [List.eq_of_mem_replicate h]
      exact List.mem_map.mpr ⟨e, List.mem_cons_self _ _, rfl⟩
    · exact List.mem_cons_of_mem _ (ih h)

theorem pairwise_keyLe_replicate (n : Nat) (a : Key) :
    List.Pairwise keyLe (List.replicate n a) := by
  induction n with
  | zero => exact List.Pairwise.nil
  | succ n ih =>
    rw [List.replicate_succ]
    refine List.pairwise_cons.mpr ⟨?_, ih⟩
    intro b hb
    rw [List.eq_of_mem_replicate hb]
    exact Or.inl rfl

theorem pairwise_replayPaths :
    ∀ {t : SceneTree},
      List.Pairwise (fun e1 e2 => keyLt e1.1 e2.1 = true) t →
      List.Pairwise keyLe (replayPaths t) := by
  intro t
  induction t with
  | nil => intro _; exact List.Pairwise.nil
  | cons e rest ih =>
    intro h
    rcases List.pairwise_cons.mp h with ⟨hhead, hrest⟩
    simp only [replayPaths]
    rw [List.pairwise_append]
    refine ⟨pairwise_keyLe_replicate _ _, ih hrest, ?_⟩
    intro b1 hb1 b2 hb2
    rw [List.eq_of_mem_replicate hb1]
    rcases List.mem_map.mp (mem_replayPaths hb2) with ⟨e2, he2, rfl⟩
    exact Or.inr (hhead e2 he2)

theorem mem_of_lookAssoc_some {α β : Type} [DecidableEq α] {k : α}
    {t : List (α × β)} {c : β} (h : lookAssoc k t = some c) :
    k ∈ t.map Prod.fst := by
  by_contra hc
  have := (lookAssoc_eq_none k t).mpr hc
  rw [this] at h
  exact Option.noConfusion h

theorem lookAssoc_isSome_of_mem {α β : Type} [DecidableEq α] {k : α}
    {t : List (α × β)} (h : k ∈ t.map Prod.fst) :
    (lookAssoc k t).isSome = true := by
  rcases hy : lookAssoc k t with _ | c
  · rw [lookAssoc_eq_none] at hy
    exact absurd h hy
  · rfl

/-- Claim C1: two path strings that normalize to the same segment sequence
denote the same tree location — `HasPath` agrees on them, each `GetPacked*`
read agrees on them, and every mutation (`SetObject`, `SetTransform`,
`SetProperty`, `Delete`) performed through one spelling is the very same
tree transformation as through the other, so a write through one spelling is
observable through any other spelling of the same location. -/
theorem path_spelling_equivalence (p1 p2 : String)
    (h : normalizePath p1 = normalizePath p2) (t : SceneTree) (payload : Bytes)
    (m : Fin 16 → Nat) (name : String) (v : PropValue) :
    hasPath t p1 = hasPath t p2 ∧
    getPackedObject t p1 = getPackedObject t p2 ∧
    getPackedTransform t p1 = getPackedTransform t p2 ∧
    getPackedProperty t p1 name = getPackedProperty t p2 name ∧
    setObjectOp p1 payload t = setObjectOp p2 payload t ∧
    setTransformOp p1 m t = setTransformOp p2 m t ∧
    setPropertyOp p1 name v t = setPropertyOp p2 name v t ∧
    deleteOp p1 t = deleteOp p2 t := by
  have hf : fullPath p1 = fullPath p2 := by
    unfold fullPath
    rw [h]
  refine ⟨?_, ?_, ?_, ?_, ?_, ?_, ?_, ?_⟩ <;>
    simp only [hasPath, getPackedObject, getPackedTransform, getPackedProperty,
      setObjectOp, setTransformOp, setPropertyOp, deleteOp, h, hf]

/-- Witness for C1 at the test's concrete spellings. -/
theorem path_spelling_equivalence_witness :
    hasPath [] "bar//frame//" = hasPath [] "bar///frame///" ∧
    deleteOp "bar//frame//" [] = deleteOp "bar///frame///" [] := by
  have h := path_spelling_equivalence "bar//frame//" "bar///frame///"
    (by decide) [] [] zeroMatrix "visible" (PropValue.bool false)
  exact ⟨h.1, h.2.2.2.2.2.2.2⟩

/-- Claim C2: `Delete("")` (and `Delete()`, whose default argument is the
empty string) is the root delete: afterwards `HasPath(p)` is false for every
path string `p`, including the default root `"/drake"` itself, from any tree
state. -/
theorem delete_root_clears_all (t : SceneTree) (p : String) :
    hasPath (deleteOp "" t) p = false := by
  have h : deleteOp "" t = [] := by
    unfold deleteOp
    rw [if_pos (Or.inr (by decide))]
  rw [h]
  rfl

/-- Claim C3: `Delete(p)` removes the node at `p` and its entire subtree:
afterwards `HasPath(q)` is false for every `q` whose normalized form has
`p`'s normalized form as an initial run (that is, `q` is `p` or a descendant
of `p`), from any tree state. -/
theorem delete_removes_subtree (t : SceneTree) (p q : String)
    (h : keyLeads (normalizePath p) (normalizePath q) = true) :
    hasPath (deleteOp p t) q = false := by
  unfold deleteOp
  by_cases hr : normalizePath p = [] ∨ normalizePath p = defaultRootSegs
  · rw [if_pos hr]
    rfl
  · rw [if_neg hr]
    unfold hasPath
    have hn : lookAssoc (normalizePath q)
        (t.filter fun e => !keyLeads (normalizePath p) e.1) = none := by
      rw [lookAssoc_eq_none]
      intro hmem
      rcases List.mem_map.mp hmem with ⟨e, he, heq⟩
      have hef := List.mem_filter.mp he
      have hl : keyLeads (normalizePath p) e.1 = true := by
        rw [heq]
        exact h
      have := hef.2
      simp [hl] at this
    rw [hn]
    rfl

/-- Witness for C3 at the claim's example: after `Delete("test")` all three
written paths are absent. -/
theorem delete_removes_subtree_witness :
    hasPath (deleteOp "test" c3tree) "test/a" = false ∧
    hasPath (deleteOp "test" c3tree) "test/b" = false ∧
    hasPath (deleteOp "test" c3tree) "test/c/d" = false :=
  ⟨delete_removes_subtree c3tree "test" "test/a" (by decide),
   delete_removes_subtree c3tree "test" "test/b" (by decide),
   delete_removes_subtree c3tree "test" "test/c/d" (by decide)⟩

/-- Counterexample to claim C4 as stated: after the test's own scenario the
node `"/drake"` is a non-root node (its key is `["drake"]`, not the tree
root `[]`) holding no object, no transform, no properties, and having no
descendant — the resulting tree is exactly the root key and the empty
`"/drake"` node — yet `HasPath("/drake")` is `true`, exactly as the test at
`meshcat_test.cc:157` expects (`EXPECT_TRUE(meshcat.HasPath("/drake"))`):
emptied interior nodes are not pruned. -/
theorem node_existence_invariant_cex :
    applyOps c4ops [] =
      [([], NodeContent.empty), (["drake"], NodeContent.empty)] ∧
    normalizePath "/drake" = ["drake"] ∧
    hasPath (applyOps c4ops []) "/drake" = true :=
  ⟨by decide, by decide, by decide⟩

/-- Claim C4 (amended): in every reachable tree state a node exists whenever
it holds content or has a descendant — in particular every ancestor of a
present path is present (`HasPath(q)` true and `p` an ancestor of `q` imply
`HasPath(p)` true); the converse direction of the claimed invariant fails,
since a non-root node left with no content and no descendants by a `Delete`
remains present until a `Delete` at or above it. -/
theorem node_descendant_implies_present (ops : List Op) (p q : String)
    (h1 : keyLeads (normalizePath p) (normalizePath q) = true)
    (h2 : hasPath (applyOps ops []) q = true) :
    hasPath (applyOps ops []) p = true := by
  have hinv := reachInv_state ops
  unfold hasPath at h2 ⊢
  have hq : normalizePath q ∈ (applyOps ops []).map Prod.fst := by
    rcases hy : lookAssoc (normalizePath q) (applyOps ops []) with _ | c
    · rw [hy] at h2
      simp at h2
    · exact mem_of_lookAssoc_some hy
  exact lookAssoc_isSome_of_mem (hinv.2 _ hq _ h1)

/-- Witness for the amended C4. -/
theorem node_descendant_implies_present_witness :
    hasPath (applyOps [Op.setTransform "test/frame" zeroMatrix] []) "test" =
      true :=
  node_descendant_implies_present [Op.setTransform "test/frame" zeroMatrix]
    "test" "test/frame" (by decide) (by decide)

/-- Claim C5: round-trip of the transform codec — after `SetTransform(p, X)`
on any tree, the bytes returned by `GetPackedTransform(p)` decode to a
`set_transform` record whose path field is exactly the normalized absolute
form of `p` (`fullPath`; e.g. the relative `"frame"` becomes
`"/drake/frame"`) and whose 16 matrix entries are the bit patterns of `X`,
bit-for-bit. -/
theorem set_transform_roundtrip (t : SceneTree) (p : String)
    (m : Fin 16 → Nat) :
    decodeSetTransform (getPackedTransform (setTransformOp p m t) p) =
      some ⟨"set_transform", fullPath p, List.ofFn m⟩ ∧
    fullPath "frame" = "/drake/frame" := by
  constructor
  · obtain ⟨c, hc⟩ := lookAssoc_writeAt (normalizePath p)
      (fun c => { c with transform := some (encodeSetTransform (fullPath p) m) }) t
    unfold setTransformOp getPackedTransform
    rw [hc]
    show decodeSetTransform (encodeSetTransform (fullPath p) m) =
      some ⟨"set_transform", fullPath p, List.ofFn m⟩
    exact decodeSetTransform_enc _ _
  · decide

/-- Claim C6: when the node at `p` is absent (in particular on the empty
tree, before any write) every `GetPacked*` read returns empty bytes, and
when the node exists but the requested slot is unset the corresponding read
returns empty bytes; the reads are total functions (never an error) and
deterministic. -/
theorem get_packed_absent_empty (t : SceneTree) (p name : String) :
    (hasPath t p = false →
      getPackedObject t p = [] ∧ getPackedTransform t p = [] ∧
        getPackedProperty t p name = []) ∧
    (∀ c, lookAssoc (normalizePath p) t = some c →
      (c.object = none → getPackedObject t p = []) ∧
      (c.transform = none → getPackedTransform t p = []) ∧
      (lookAssoc name c.properties = none → getPackedProperty t p name = [])) := by
  constructor
  · intro h
    have hn : lookAssoc (normalizePath p) t = none := by
      unfold hasPath at h
      rcases hy : lookAssoc (normalizePath p) t with _ | c
      · rfl
      · rw [hy] at h
        simp at h
    unfold getPackedObject getPackedTransform getPackedProperty
    simp only [hn]
    exact ⟨trivial, trivial, trivial⟩
  · intro c hc
    unfold getPackedObject getPackedTransform getPackedProperty
    simp only [hc]
    refine ⟨?_, ?_, ?_⟩
    · intro ho
      simp only [ho]
    · intro ht2
      simp only [ht2]
    · intro hp2
      simp only [hp2]

/-- Witness for C6: a probe before any write and a probe of an unset slot. -/
theorem get_packed_absent_empty_witness :
    getPackedObject [] "sphere" = [] ∧
    getPackedTransform [(["drake", "frame"], NodeContent.empty)] "frame" = [] := by
  constructor
  · exact ((get_packed_absent_empty [] "sphere" "visible").1 (by decide)).1
  · exact ((get_packed_absent_empty [(["drake", "frame"], NodeContent.empty)]
      "frame" "visible").2 NodeContent.empty (by decide)).2.1 rfl

/-- Claim C7: `SetObject` with an unsupported shape kind (`HalfSpace`,
`Capsule`) or an invalid asset reference (mesh/convex file whose name has no
recognized extension, or which the file system does not contain) performs no
tree mutation at all — the facade is a total function, so nothing is raised —
and leaves any prior content at the path unchanged: `GetPackedObject`
afterwards yields the previous value, or empty bytes if that slot was never
set. -/
theorem set_object_unsupported_noop (fs : String → Bool) (t : SceneTree)
    (p : String) (s : Shape)
    (h : s = Shape.halfSpace ∨ (∃ r l, s = Shape.capsule r l) ∨
      (∃ fn sc, (s = Shape.mesh fn sc ∨ s = Shape.convex fn sc) ∧
        (meshExtOk fn = false ∨ fs fn = false))) :
    setObjectShape fs p s t = t ∧
    getPackedObject (setObjectShape fs p s t) p = getPackedObject t p ∧
    hasPath (setObjectShape fs p s t) p = hasPath t p := by
  have hnone : lowerShape fs s = none := by
    rcases h with rfl | ⟨r, l, rfl⟩ | ⟨fn, sc, hs, hcond⟩
    · rfl
    · rfl
    · rcases hs with rfl | rfl <;>
        rcases hcond with hc | hc <;>
        simp [lowerShape, hc]
  have heq : setObjectShape fs p s t = t := by
    unfold setObjectShape
    rw [hnone]
  exact ⟨heq, by rw [heq], by rw [heq]⟩

/-- Witness for C7 at the test's `HalfSpace` probe. -/
theorem set_object_unsupported_noop_witness :
    setObjectShape (fun _ => false) "halfspace" Shape.halfSpace [] = [] ∧
    getPackedObject
        (setObjectShape (fun _ => false) "halfspace" Shape.halfSpace [])
        "halfspace" =
      getPackedObject [] "halfspace" :=
  ⟨(set_object_unsupported_noop (fun _ => false) [] "halfspace"
      Shape.halfSpace (Or.inl rfl)).1,
   (set_object_unsupported_noop (fun _ => false) [] "halfspace"
      Shape.halfSpace (Or.inl rfl)).2.1⟩

/-- Claim C8: replay order — every reachable tree state is a sorted list of
nodes in ascending path (pre-order) order with each node's property map in
ascending name order, so the replay walk (`replay`, which emits per node its
object command, then its transform command, then its properties in stored
order) delivers the cached commands with their paths ascending
(`replayPaths` is pairwise `keyLe`), independent of the chronological order
of the facade calls that produced the state; concretely, setting
`"/Grid"` before `"/Background"` produces the same tree as the opposite
order, and its replay delivers the `"/Background"` command before the
`"/Grid"` command. -/
theorem replay_ascending_order (ops : List Op) :
    List.Pairwise (fun e1 e2 => keyLt e1.1 e2.1 = true) (applyOps ops []) ∧
    (∀ e ∈ applyOps ops [], propsSorted e.2) ∧
    List.Pairwise keyLe (replayPaths (applyOps ops [])) ∧
    applyOps [Op.setProperty "/Grid" "visible" (PropValue.bool false),
        Op.setProperty "/Background" "visible" (PropValue.bool false)] [] =
      applyOps [Op.setProperty "/Background" "visible" (PropValue.bool false),
        Op.setProperty "/Grid" "visible" (PropValue.bool false)] [] ∧
    replay (applyOps [Op.setProperty "/Grid" "visible" (PropValue.bool false),
        Op.setProperty "/Background" "visible" (PropValue.bool false)] []) =
      [encodeSetProperty "/Background" "visible" (PropValue.bool false),
       encodeSetProperty "/Grid" "visible" (PropValue.bool false)] := by
  have hinv := reachInv_state ops
  exact ⟨hinv.1.1, hinv.1.2, pairwise_replayPaths hinv.1.1, by decide, by decide⟩

/-- Counterexample to claim C9 as stated: the construction failure's message
is not the string `"failed to open a websocket port"` — it is the fixed
message `"Meshcat failed to open a websocket port."` pinned by the
repository test `MeshcatTest.Ports`. -/
theorem explicit_port_message_cex :
    (bindPort (some 7050) (fun _ => false)).1 =
      Except.error meshcatPortError ∧
    meshcatPortError ≠ "failed to open a websocket port" :=
  ⟨rfl, by decide⟩

/-- Claim C9 (amended): construction with an explicit port attempts the bind
exactly once (the attempt list is exactly `[p]`, no fallback); if the port
is unavailable it fails fast with the fixed message
`"Meshcat failed to open a websocket port."` — which contains the
documented phrase `"failed to open a websocket port"` — and if the port is
available the construction succeeds and the bound port is exactly the
requested one. -/
theorem explicit_port_bind (p : Nat) (avail : Nat → Bool) :
    (bindPort (some p) avail).2 = [p] ∧
    (avail p = true → (bindPort (some p) avail).1 = Except.ok p) ∧
    (avail p = false →
      (bindPort (some p) avail).1 = Except.error meshcatPortError) ∧
    meshcatPortError = "Meshcat " ++ "failed to open a websocket port" ++ "." := by
  refine ⟨rfl, ?_, ?_, by decide⟩
  · intro h
    simp [bindPort, h]
  · intro h
    simp [bindPort, h]

/-- Witness for the amended C9 at the test's port 7050. -/
theorem explicit_port_bind_witness :
    (bindPort (some 7050) (fun _ => false)).1 =
      Except.error meshcatPortError ∧
    (bindPort (some 7050) (fun _ => true)).1 = Except.ok 7050 :=
  ⟨(explicit_port_bind 7050 (fun _ => false)).2.2.1 rfl,
   (explicit_port_bind 7050 (fun _ => true)).2.1 rfl⟩

/-- Counterexample to claim C10 as stated: `Delete("")` when the path `""`
does not exist in the tree (`HasPath("")` is false) is not a no-op — it is
the root delete, which clears the whole tree, so the unrelated existing path
`"/Grid"` changes from present to absent. -/
theorem delete_missing_noop_cex :
    hasPath c10tree "" = false ∧
    hasPath c10tree "/Grid" = true ∧
    deleteOp "" c10tree ≠ c10tree ∧
    hasPath (deleteOp "" c10tree) "/Grid" = false :=
  ⟨by decide, by decide, by decide, by decide⟩

/-- Claim C10 (amended): `Delete` on a path that does not exist in a
reachable tree and does not normalize to the root or to the default root is
a silent no-op — the tree is unchanged, so every `HasPath` (and hence every
`GetPacked*`) observation is unchanged; `Delete("")`/`Delete()` instead
always clears the whole tree, which is a no-op on an already-empty tree. -/
theorem delete_missing_noop (ops : List Op) (p : String)
    (h1 : normalizePath p ≠ [])
    (h2 : normalizePath p ≠ defaultRootSegs)
    (h3 : hasPath (applyOps ops []) p = false) :
    deleteOp p (applyOps ops []) = applyOps ops [] ∧
    (∀ q, hasPath (deleteOp p (applyOps ops [])) q =
      hasPath (applyOps ops []) q) ∧
    deleteOp "" ([] : SceneTree) = [] := by
  have hinv := reachInv_state ops
  have heq : deleteOp p (applyOps ops []) = applyOps ops [] := by
    unfold deleteOp
    rw [if_neg (not_or.mpr ⟨h1, h2⟩)]
    refine List.filter_eq_self.mpr ?_
    intro e he
    cases hb : keyLeads (normalizePath p) e.1 with
    | false => simp
    | true =>
      have hk : normalizePath p ∈ (applyOps ops []).map Prod.fst :=
        hinv.2 e.1 (List.mem_map.mpr ⟨e, he, rfl⟩) _ hb
      have hs := lookAssoc_isSome_of_mem hk
      unfold hasPath at h3
      rw [hs] at h3
      exact absurd h3 (by simp)
  exact ⟨heq, fun q => by rw [heq], by decide⟩

/-- Witness for the amended C10 at the test's `Delete("bad")` probe. -/
theorem delete_missing_noop_witness :
    deleteOp "bad" (applyOps [Op.setTransform "frame" zeroMatrix] []) =
      applyOps [Op.setTransform "frame" zeroMatrix] [] :=
  (delete_missing_noop [Op.setTransform "frame" zeroMatrix] "bad"
    (by decide) (by decide) (by decide)).1

end Meshcat
